import Mathlib

/-!
Verification of the next-config configuration library (versioned, migratable,
file-backed configuration records).

The development shallowly embeds the library's core modules:

* `Value` — `serde_value::Value` restricted to the shapes the library
  manipulates (string/bool/integer scalars, maps with string keys, sequences).
  Rust `BTreeMap<Value, Value>` maps are modelled as association lists with
  string keys; only lookup/insert semantics matter to the code under study.
* `extractVersion`, `mergeDefaults`, `migrate` — `ConfigData::extract_version`,
  `ConfigData::merge_defaults`, `ConfigData::migrate` (src/config.rs).
* `load`, `saveValue`, `saveEvents` — `ConfigData::load_from_dir` and
  `ConfigData::save` (src/config.rs).  TOML text encoding/decoding is
  abstracted: a file's contents are represented by its parsed `Value`.
* `update`, `loadAll` — `ConfigStore::update` and `ConfigStore::load_all`
  (src/store.rs).
* `atomicWriteEvents`, `atomicRead` — `AtomicFile::write` / `AtomicFile::read`
  (src/atomic.rs), with the filesystem-event trace made explicit and the
  `std::fs::OpenOptions` validation rules embedded.

A panic (`expect` / `panic!`) is modelled as `MResult.panic`; a returned
`Err` as `MResult.error`.
-/

namespace NextConfig

/-- `serde_value::Value`, restricted to the variants the library and its
tests exercise.  `u32`/`u64` carry the unsigned value, `i64` a signed one
(TOML integers parse to `I64`).  Map keys of configuration records are
always strings. -/
inductive Value where
  | str : String → Value
  | boolV : Bool → Value
  | u32 : Nat → Value
  | u64 : Nat → Value
  | i64 : Int → Value
  | map : List (String × Value) → Value
  | seq : List Value → Value

/-- Association-list lookup (the `BTreeMap::get` of the source, specialised
to string keys). -/
def alLookup {β : Type} (k : String) : List (String × β) → Option β
  | [] => none
  | (k₀, v) :: rest => if k = k₀ then some v else alLookup k rest

/-- `BTreeMap::insert`: replace the value of an existing key in place, or
add the binding if the key is absent. -/
def alInsert {β : Type} (m : List (String × β)) (k : String) (v : β) :
    List (String × β) :=
  match m with
  | [] => [(k, v)]
  | (k₀, v₀) :: rest =>
    if k₀ = k then (k, v) :: rest else (k₀, v₀) :: alInsert rest k v

/-- `BTreeMap::entry(k).or_insert(v)`: keep an existing binding, insert the
new one otherwise. -/
def alEntryOrInsert {β : Type} (m : List (String × β)) (k : String) (v : β) :
    List (String × β) :=
  if (alLookup k m).isSome then m else m ++ [(k, v)]

theorem alLookup_alInsert_self {β : Type} (m : List (String × β)) (k : String) (v : β) :
    alLookup k (alInsert m k v) = some v := by
  induction m with
  | nil => simp [alInsert, alLookup]
  | cons p rest ih =>
    obtain ⟨k₀, v₀⟩ := p
    by_cases h : k₀ = k
    · simp [alInsert, h, alLookup]
    · simp [alInsert, h, alLookup, Ne.symm h, ih]

theorem alLookup_alInsert_ne {β : Type} (m : List (String × β)) (k k' : String) (v : β)
    (h : k' ≠ k) : alLookup k' (alInsert m k v) = alLookup k' m := by
  induction m with
  | nil => simp [alInsert, alLookup, h]
  | cons p rest ih =>
    obtain ⟨k₀, v₀⟩ := p
    by_cases hk : k₀ = k
    · subst hk
      simp [alInsert, alLookup, h]
    · by_cases hk' : k' = k₀ <;> simp [alInsert, hk, alLookup, hk', ih]

theorem alInsert_idem {β : Type} (m : List (String × β)) (k : String) (v : β) :
    alInsert (alInsert m k v) k v = alInsert m k v := by
  induction m with
  | nil => simp [alInsert]
  | cons p rest ih =>
    obtain ⟨k₀, v₀⟩ := p
    by_cases h : k₀ = k
    · simp [alInsert, h]
    · simp [alInsert, h, ih]

theorem alLookup_append {β : Type} (m₁ m₂ : List (String × β)) (k : String) :
    alLookup k (m₁ ++ m₂) =
      (alLookup k m₁).orElse (fun _ => alLookup k m₂) := by
  induction m₁ with
  | nil => simp [alLookup, Option.orElse]
  | cons p rest ih =>
    obtain ⟨k₀, v₀⟩ := p
    by_cases h : k = k₀ <;> simp [alLookup, h, ih, Option.orElse]

/-- `crate::error::Error` (src/error.rs), collapsed to the variants the
embedded operations can produce. -/
inductive Error where
  | serialization : Error
  | deserialization : Error
  | migrationFailed : String → Error
  | io : Error
deriving DecidableEq

/-- Outcome of an operation that can return normally, return an `Err`, or
panic (`expect` / `panic!` aborts the process). -/
inductive MResult (α : Type) where
  | panic : MResult α
  | error : Error → MResult α
  | ok : α → MResult α

/-- `2^32`: the modulus of Rust's `u32` arithmetic (wrapping `+=` in release
builds). -/
def u32Mod : Nat := 4294967296

/-- A registered configuration schema: the data the `Config` trait fixes for
a type `T` (`VERSION`, `FILE_NAME`), the serialization of `T::default()`
(a root map, keyed by the struct's field names), the per-field decode check
serde applies, and the migration steps registered for `T`
(`RegisteredMigration` entries keyed by source version, as collected into a
`HashMap<u32, MigrateFn>` by `ConfigData::migrate`). -/
structure Schema where
  VERSION : Nat
  hver : VERSION < u32Mod
  fileName : String
  fields : List String
  defaultVal : List (String × Value)
  fieldOk : String → Value → Bool
  steps : Nat → Option (Value → Except Error Value)

/-- Serde deserialization of a `u32` from a `Value`
(`Value::deserialize_into::<u32>`): integer scalars are accepted when they
fit in 32 unsigned bits and rejected otherwise; every non-integer value is
rejected.  `none` is the deserialization error. -/
def deserializeU32 : Value → Option Nat
  | Value.u32 n => if n < u32Mod then some n else none
  | Value.u64 n => if n < u32Mod then some n else none
  | Value.i64 i => if 0 ≤ i ∧ i < (4294967296 : Int) then some i.toNat else none
  | _ => none

/-- An integer-like scalar in the sense of the specification. -/
def isIntScalar : Value → Bool
  | Value.u32 _ => true
  | Value.u64 _ => true
  | Value.i64 _ => true
  | _ => false

/-- `ConfigData::extract_version` (src/config.rs): look up `_version` in the
root map; absence defaults to version `1`; a present value is deserialized
as `u32`, panicking (`expect`) on failure; a non-map root panics.  `none`
models the panic. -/
def extractVersion : Value → Option Nat
  | Value.map m =>
    match alLookup "_version" m with
    | none => some 1
    | some v => deserializeU32 v
  | _ => none

/-- The map-level part of `ConfigData::merge_defaults`: fold
`entry(k).or_insert(v)` over the defaults map. -/
def mergeMapDefaults (defaults tm : List (String × Value)) :
    List (String × Value) :=
  defaults.foldl (fun acc kv => alEntryOrInsert acc kv.1 kv.2) tm

/-- `ConfigData::merge_defaults` (src/config.rs): `T::default()` serializes
to the root map `S.defaultVal`; when the target is also a map, insert every
defaulted key that is absent; any other target shape is left unchanged
(the source's `if let (Map, Map)` falls through). -/
def mergeDefaults (S : Schema) (target : Value) : Value :=
  match target with
  | Value.map tm => Value.map (mergeMapDefaults S.defaultVal tm)
  | t => t

/-- The number of loop iterations `ConfigData::migrate`'s `while` loop still
has to run from counter value `v` (u32 arithmetic): the distance from `v` up
to `target` modulo `2^32`. -/
def distTo (target v : Nat) : Nat := (target + u32Mod - v) % u32Mod

/-- The body of `ConfigData::migrate`'s `while current_version != T::VERSION`
loop, run with an explicit iteration budget.  Each iteration merges schema
defaults, applies the registered step for the current source version if one
exists (a missing step is a no-op), and increments the u32 counter
(wrapping).  The budget is always instantiated with `distTo`, which counts
the loop's remaining iterations exactly (see `migrateLoop_eq`). -/
def migrateSteps (S : Schema) : Nat → Nat → Value → Except Error Value
  | 0, _, val => Except.ok val
  | fuel + 1, v, val =>
    if v == S.VERSION then Except.ok val
    else
      match S.steps v with
      | none => migrateSteps S fuel ((v + 1) % u32Mod) (mergeDefaults S val)
      | some f =>
        match f (mergeDefaults S val) with
        | Except.error e => Except.error e
        | Except.ok val' => migrateSteps S fuel ((v + 1) % u32Mod) val'

/-- `ConfigData::migrate`'s loop, entered at counter value `v`. -/
def migrateLoop (S : Schema) (v : Nat) (val : Value) : Except Error Value :=
  migrateSteps S (distTo S.VERSION v) v val

/-- The final `map.insert("_version", Value::U32(T::VERSION))` of
`ConfigData::migrate`: a non-map value is left unchanged. -/
def setVersion (S : Schema) : Value → Value
  | Value.map m => Value.map (alInsert m "_version" (Value.u32 S.VERSION))
  | v => v

/-- `ConfigData::migrate` (src/config.rs): extract the version (panicking on
a malformed record), remember whether it differs from the current version,
run the migration loop, then write the current version into the root map.
Returns the migrated value and the `needs_migration` flag. -/
def migrate (S : Schema) (value : Value) : MResult (Value × Bool) :=
  match extractVersion value with
  | none => MResult.panic
  | some v =>
    match migrateLoop S v value with
    | Except.error e => MResult.error e
    | Except.ok val' => MResult.ok (setVersion S val', v != S.VERSION)

/-- One migration boundary as the specification describes it: merge the
schema defaults, then apply the step registered for source version `v` if
one exists (a missing step is a no-op, not an error). -/
def stepAt (S : Schema) (v : Nat) (val : Value) : Except Error Value :=
  match S.steps v with
  | none => Except.ok (mergeDefaults S val)
  | some f => f (mergeDefaults S val)

/-- The specification's migration chain: apply `k` boundaries at the strictly
increasing source versions `v, v+1, …, v+k-1`. -/
def chainUp (S : Schema) : Nat → Nat → Value → Except Error Value
  | _, 0, val => Except.ok val
  | v, k + 1, val =>
    match stepAt S v val with
    | Except.error e => Except.error e
    | Except.ok val' => chainUp S (v + 1) k val'

/-- The migration chain with a wrapping u32 source-version counter: apply `k`
boundaries at the source versions `v, (v+1) % 2^32, …`. -/
def chainUpMod (S : Schema) : Nat → Nat → Value → Except Error Value
  | _, 0, val => Except.ok val
  | v, k + 1, val =>
    match stepAt S v val with
    | Except.error e => Except.error e
    | Except.ok val' => chainUpMod S ((v + 1) % u32Mod) k val'

theorem distTo_zero_iff {t v : Nat} (ht : t < u32Mod) (hv : v < u32Mod) :
    distTo t v = 0 ↔ v = t := by
  unfold distTo u32Mod at *
  omega

theorem distTo_succ {t v : Nat} (ht : t < u32Mod) (hv : v < u32Mod) (hne : v ≠ t) :
    distTo t ((v + 1) % u32Mod) + 1 = distTo t v := by
  unfold distTo u32Mod at *
  omega

theorem distTo_of_le {t v : Nat} (ht : t < u32Mod) (h : v ≤ t) :
    distTo t v = t - v := by
  unfold distTo u32Mod at *
  omega

theorem distTo_of_gt {t v : Nat} (ht : t < u32Mod) (hv : v < u32Mod) (h : t < v) :
    distTo t v = u32Mod + t - v := by
  unfold distTo u32Mod at *
  omega

theorem extractVersion_lt {val : Value} {v : Nat}
    (h : extractVersion val = some v) : v < u32Mod := by
  unfold extractVersion at h
  cases val with
  | str s => exact absurd h (by simp)
  | boolV b => exact absurd h (by simp)
  | u32 n => exact absurd h (by simp)
  | u64 n => exact absurd h (by simp)
  | i64 i => exact absurd h (by simp)
  | seq l => exact absurd h (by simp)
  | map m =>
  cases hl : alLookup "_version" m <;> simp only [hl] at h
  · simp at h
    subst h
    unfold u32Mod
    omega
  · rename_i w
    cases w with
    | str s => exact absurd h (by simp [deserializeU32])
    | boolV b => exact absurd h (by simp [deserializeU32])
    | map m' => exact absurd h (by simp [deserializeU32])
    | seq l => exact absurd h (by simp [deserializeU32])
    | u32 n =>
      simp only [deserializeU32] at h
      split at h
      · simp at h; omega
      · exact absurd h (by simp)
    | u64 n =>
      simp only [deserializeU32] at h
      split at h
      · simp at h; omega
      · exact absurd h (by simp)
    | i64 i =>
      simp only [deserializeU32] at h
      split at h
      · rename_i hi
        simp at h
        unfold u32Mod
        omega
      · exact absurd h (by simp)

theorem migrateSteps_eq_chainUp (S : Schema) :
    ∀ (k v : Nat) (val : Value), v + k = S.VERSION →
      migrateSteps S k v val = chainUp S v k val := by
  intro k
  induction k with
  | zero => intro v val _; rfl
  | succ k ih =>
    intro v val h
    have hvlt : v < S.VERSION := by omega
    have hbeq : (v == S.VERSION) = false := by
      simp [Nat.ne_of_lt hvlt]
    have hmod : (v + 1) % u32Mod = v + 1 :=
      Nat.mod_eq_of_lt (by have := S.hver; omega)
    cases hs : S.steps v with
    | none =>
      simp only [migrateSteps, chainUp, stepAt, hbeq, hs, hmod,
        Bool.false_eq_true, if_false]
      exact ih (v + 1) (mergeDefaults S val) (by omega)
    | some f =>
      cases hf : f (mergeDefaults S val) with
      | error e =>
        simp only [migrateSteps, chainUp, stepAt, hbeq, hs, hf, hmod,
          Bool.false_eq_true, if_false]
      | ok val' =>
        simp only [migrateSteps, chainUp, stepAt, hbeq, hs, hf, hmod,
          Bool.false_eq_true, if_false]
        exact ih (v + 1) val' (by omega)

theorem migrateSteps_eq_chainUpMod (S : Schema) :
    ∀ (k v : Nat) (val : Value), v < u32Mod → distTo S.VERSION v = k →
      migrateSteps S k v val = chainUpMod S v k val := by
  intro k
  induction k with
  | zero => intro v val _ _; rfl
  | succ k ih =>
    intro v val hv hd
    have hne : v ≠ S.VERSION := by
      intro hcontra
      rw [(distTo_zero_iff S.hver hv).mpr hcontra] at hd
      exact Nat.succ_ne_zero k hd.symm
    have hbeq : (v == S.VERSION) = false := by simp [hne]
    have hv' : (v + 1) % u32Mod < u32Mod :=
      Nat.mod_lt _ (by unfold u32Mod; omega)
    have hd' : distTo S.VERSION ((v + 1) % u32Mod) = k := by
      have := distTo_succ S.hver hv hne
      omega
    cases hs : S.steps v with
    | none =>
      simp only [migrateSteps, chainUpMod, stepAt, hbeq, hs,
        Bool.false_eq_true, if_false]
      exact ih ((v + 1) % u32Mod) (mergeDefaults S val) hv' hd'
    | some f =>
      cases hf : f (mergeDefaults S val) with
      | error e =>
        simp only [migrateSteps, chainUpMod, stepAt, hbeq, hs, hf,
          Bool.false_eq_true, if_false]
      | ok val' =>
        simp only [migrateSteps, chainUpMod, stepAt, hbeq, hs, hf,
          Bool.false_eq_true, if_false]
        exact ih ((v + 1) % u32Mod) val' hv' hd'

/-- Serde deserialization of the concrete config struct from a root map:
every declared field must be present and pass its field check; unknown keys
(such as `_version`) are ignored, which is serde's default for structs. -/
def decodeFields (S : Schema) (m : List (String × Value)) :
    List String → Option (List (String × Value))
  | [] => some []
  | f :: fs =>
    match alLookup f m with
    | none => none
    | some v =>
      if S.fieldOk f v then
        match decodeFields S m fs with
        | none => none
        | some rest => some ((f, v) :: rest)
      else none

/-- `serde::Deserialize::deserialize(value)` for the schema's struct type: a
typed instance is the assignment of a well-typed `Value` to each declared
field; a non-map root is a deserialization error. -/
def decodeT (S : Schema) : Value → Option (List (String × Value))
  | Value.map m => decodeFields S m S.fields
  | _ => none

/-- The value `ConfigData::save` writes: `serde_value::to_value` of the held
instance (its field map) with `_version` set to the current version. -/
def saveValue (S : Schema) (t : List (String × Value)) : Value :=
  Value.map (alInsert t "_version" (Value.u32 S.VERSION))

/-- Result of `ConfigData::load_from_dir`, at the value level: the decoded
typed instance, `migrate`'s `needs_migration` flag, and the file content
written back (`none` when the file is left untouched). -/
structure LoadResult where
  typed : List (String × Value)
  changed : Bool
  newFile : Option Value

/-- The starting `Value` of `ConfigData::load_from_dir`: the parsed file
contents if the backing file exists, otherwise `T::default()`'s map with
`_version` set to the current version. -/
def loadValue (S : Schema) (file : Option Value) : Value :=
  match file with
  | some v => v
  | none => Value.map (alInsert S.defaultVal "_version" (Value.u32 S.VERSION))

/-- `ConfigData::load_from_dir` (src/config.rs) at the value level: build the
starting value, migrate it, decode the concrete instance, and save back when
migration changed the record or the file did not exist.  The file is
represented by its parsed contents (`none` = absent). -/
def load (S : Schema) (file : Option Value) : MResult LoadResult :=
  match migrate S (loadValue S file) with
  | MResult.panic => MResult.panic
  | MResult.error e => MResult.error e
  | MResult.ok (val', changed) =>
    match decodeT S val' with
    | none => MResult.error Error.deserialization
    | some t =>
      if changed || file.isNone then
        MResult.ok ⟨t, changed, some (saveValue S t)⟩
      else
        MResult.ok ⟨t, changed, none⟩

/-- The file state after a load: the rewritten contents if the load saved,
the original file otherwise. -/
def fileAfterLoad (f₀ : Option Value) (r : LoadResult) : Option Value :=
  match r.newFile with
  | some w => some w
  | none => f₀

/-- One schema's slot of the `ConfigStore`: the held typed value and the
backing file (parsed contents, `none` = absent). -/
structure StoreEntry where
  value : List (String × Value)
  file : Option Value

/-- A mutator passed to `ConfigStore::update`: `FnOnce(&mut T) -> Result`,
modelled as the mutated value it leaves behind together with its result. -/
def Mutator : Type :=
  List (String × Value) → List (String × Value) × Except Error Unit

/-- `ConfigStore::update` (src/store.rs): run the mutator on the held value;
if it errors, keep the (possibly partially) mutated value in memory and do
not persist; on success, persist via `ConfigData::save`. -/
def update (S : Schema) (st : StoreEntry) (f : Mutator) :
    StoreEntry × Except Error Unit :=
  match f st.value with
  | (t', Except.error e) => (⟨t', st.file⟩, Except.error e)
  | (t', Except.ok _) => (⟨t', some (saveValue S t')⟩, Except.ok ())

/-- Filesystem events, used to compare the Record Store's persistence with
the Atomic File Channel's write protocol.  Serialized text is abstracted by
the `Value` it encodes. -/
inductive FsEvent where
  | lockExclusive : String → FsEvent
  | lockShared : String → FsEvent
  | unlockFile : String → FsEvent
  | createTempIn : String → FsEvent
  | writeTempFile : Value → FsEvent
  | flushTempFile : FsEvent
  | syncTempFile : FsEvent
  | persistTempOver : String → FsEvent
  | plainWrite : String → Value → FsEvent
  | renameFile : String → String → FsEvent

/-- `conf_dir.join(FILE_NAME)`. -/
def joinPath (dir file : String) : String := dir ++ "/" ++ file

/-- Helper for `Path::with_extension`: given the reversed character list of
a path, drop everything up to and including the last `.` of the last
component; `none` when the last component has no extension. -/
def stripExtAux : List Char → Option (List Char)
  | [] => none
  | c :: rest =>
    if c = '.' then some rest
    else if c = '/' then none
    else stripExtAux rest

/-- `destination.with_extension("tmp")` (src/config.rs save): replace the
final extension with `tmp`, or append it when there is none. -/
def withExtTmp (p : String) : String :=
  match stripExtAux p.data.reverse with
  | some stem => String.mk (stem.reverse ++ [ '.', 't', 'm', 'p'])
  | none => p ++ ".tmp"

/-- `path.parent().unwrap_or(Path::new("."))` (src/atomic.rs write). -/
def parentAux : List Char → Option (List Char)
  | [] => none
  | c :: rest => if c = '/' then some rest else parentAux rest

def parentDir (p : String) : String :=
  match parentAux p.data.reverse with
  | some revDir => String.mk revDir.reverse
  | none => "."

/-- The filesystem events of `ConfigData::save` (src/config.rs): serialize
the held value with `_version` injected, `std::fs::write` it to the
destination path with its extension replaced by `tmp`, then
`std::fs::rename` it over the destination.  No lock is taken and no fsync is
issued. -/
def saveEvents (S : Schema) (dir : String) (t : List (String × Value)) :
    List FsEvent :=
  [FsEvent.plainWrite (withExtTmp (joinPath dir S.fileName)) (saveValue S t),
   FsEvent.renameFile (withExtTmp (joinPath dir S.fileName))
     (joinPath dir S.fileName)]

/-- The filesystem events of `ConfigData::load_from_dir`'s persistence: when
the load writes back, it does so via `ConfigData::save`. -/
def loadEvents (S : Schema) (dir : String) (file : Option Value) :
    List FsEvent :=
  match load S file with
  | MResult.ok r =>
    match r.newFile with
    | some _ => saveEvents S dir r.typed
    | none => []
  | _ => []

/-- The filesystem events of `ConfigStore::update`'s persistence: nothing on
a mutator error, `ConfigData::save` on success. -/
def updateEvents (S : Schema) (dir : String) (st : StoreEntry) (f : Mutator) :
    List FsEvent :=
  match f st.value with
  | (_, Except.error _) => []
  | (t', Except.ok _) => saveEvents S dir t'

/-- The filesystem events of `AtomicFile::write` (src/atomic.rs): exclusive
lock on the target, fresh named temp file in the target's directory, write,
flush, fsync (`sync_all`), atomic rename over the target (`persist`), then
lock release. -/
def atomicWriteEvents (target : String) (contents : Value) : List FsEvent :=
  [FsEvent.lockExclusive target,
   FsEvent.createTempIn (parentDir target),
   FsEvent.writeTempFile contents,
   FsEvent.flushTempFile,
   FsEvent.syncTempFile,
   FsEvent.persistTempOver target,
   FsEvent.unlockFile target]

/-- The Atomic File Channel write protocol as the specification words it:
acquire an exclusive lock on the target, write the bytes to a freshly
created temporary file in the same directory, flush and fsync it, atomically
rename it over the target, then release the lock.  This definition follows
the specification's description, to be compared with the store's actual
persistence traces. -/
def specAtomicWriteProtocol (target : String) : List FsEvent → Bool
  | [FsEvent.lockExclusive p, FsEvent.createTempIn d, FsEvent.writeTempFile _,
     FsEvent.flushTempFile, FsEvent.syncTempFile, FsEvent.persistTempOver q,
     FsEvent.unlockFile r] =>
    p == target && d == parentDir target && q == target && r == target
  | _ => false

/-- One registered configuration in the store's table: its schema and the
state of its slot (backing file and holder; `holder = none` is the `Empty`
state of a not-yet-loaded `ConfigData`). -/
structure Entry where
  schema : Schema
  file : Option Value
  holder : Option (List (String × Value))

def entryName (e : Entry) : String := e.schema.fileName

/-- `config.load_from_dir(&self.conf_dir)` on one store slot: on success the
holder is populated and the backing file possibly rewritten. -/
def loadEntry (e : Entry) : MResult Entry :=
  match load e.schema e.file with
  | MResult.panic => MResult.panic
  | MResult.error er => MResult.error er
  | MResult.ok r => MResult.ok ⟨e.schema, fileAfterLoad e.file r, some r.typed⟩

/-- The entry after a successful load (used to state what `load_all` leaves
behind for the slots processed before a failure). -/
def loadedEntry (e : Entry) : Entry :=
  match loadEntry e with
  | MResult.ok e' => e'
  | _ => e

def MResult.isOk {α : Type} : MResult α → Bool
  | MResult.ok _ => true
  | _ => false

/-- `ConfigStore::load_all` (src/store.rs): iterate the store's config table
in its iteration order, loading each entry; `?` propagates the first
failure, leaving the remaining entries untouched.  The store's table is a
`HashMap`, so the iteration order is an unspecified permutation of the
registration order (see the C8 theorems). -/
def loadAll : List Entry → List Entry × MResult Unit
  | [] => ([], MResult.ok ())
  | e :: rest =>
    match loadEntry e with
    | MResult.panic => (e :: rest, MResult.panic)
    | MResult.error er => (e :: rest, MResult.error er)
    | MResult.ok e' =>
      let res := loadAll rest
      (e' :: res.1, res.2)

/-- The file names of the entries on which `load_all` invokes `load`, in
call order (every entry up to and including the first failing one). -/
def loadCallOrder : List Entry → List String
  | [] => []
  | e :: rest =>
    entryName e ::
      (match loadEntry e with
       | MResult.ok _ => loadCallOrder rest
       | _ => [])

/-- `std::fs::OpenOptions`, with the flag set `AtomicFile` uses. -/
structure OpenOptions where
  readAccess : Bool
  writeAccess : Bool
  appendAccess : Bool
  create : Bool
  truncate : Bool
  createNew : Bool

inductive IoErr where
  | invalidInput : IoErr
  | notFound : IoErr
deriving DecidableEq

/-- `OpenOptions::open` as documented and implemented by Rust's standard
library: an access mode of neither read, write nor append is invalid;
`create`/`create_new`/`truncate` without write or append access is invalid
(EINVAL, kind `InvalidInput`); `truncate` together with `append` (without
`create_new`) is invalid.  Otherwise the file is opened, created empty when
absent and `create` is set, and truncated when `truncate` is set.  The
filesystem maps paths to contents. -/
def openFile (o : OpenOptions) (fs : List (String × String)) (path : String) :
    Except IoErr (List (String × String) × String) :=
  if !o.readAccess && !o.writeAccess && !o.appendAccess then
    Except.error IoErr.invalidInput
  else if !o.writeAccess && !o.appendAccess &&
      (o.truncate || o.create || o.createNew) then
    Except.error IoErr.invalidInput
  else if o.appendAccess && o.truncate && !o.createNew then
    Except.error IoErr.invalidInput
  else
    match alLookup path fs with
    | some c => Except.ok (fs, if o.truncate then "" else c)
    | none =>
      if o.create || o.createNew then Except.ok (alInsert fs path "", "")
      else Except.error IoErr.notFound

/-- The options `AtomicFile::read` passes to `OpenOptions`
(src/atomic.rs): `.read(true).create(true)`. -/
def atomicReadOpts : OpenOptions :=
  ⟨true, false, false, true, false, false⟩

/-- `AtomicFile::read` (src/atomic.rs): open the path with
`.read(true).create(true)`, take a shared lock, and read the contents. -/
def atomicRead (fs : List (String × String)) (path : String) :
    Except IoErr String :=
  match openFile atomicReadOpts fs path with
  | Except.error e => Except.error e
  | Except.ok (_, contents) => Except.ok contents

/-- Well-formedness of a registered schema, all of which holds for any Rust
`Config` type: struct field names are distinct, `_version` is not a declared
field (it is the reserved metadata key), and `T::default()` provides a
well-typed value for every declared field. -/
def SchemaWF (S : Schema) : Prop :=
  S.fields.Nodup ∧ "_version" ∉ S.fields ∧
    ∀ f ∈ S.fields, Option.any (S.fieldOk f) (alLookup f S.defaultVal) = true

instance (S : Schema) : Decidable (SchemaWF S) := by
  unfold SchemaWF
  infer_instance

theorem decodeFields_congr (S : Schema) (fs : List String)
    (m m' : List (String × Value))
    (h : ∀ f ∈ fs, alLookup f m' = alLookup f m) :
    decodeFields S m' fs = decodeFields S m fs := by
  induction fs with
  | nil => rfl
  | cons f fs ih =>
    have hf : alLookup f m' = alLookup f m := h f (by simp)
    have hrest := ih (fun g hg => h g (by simp [hg]))
    simp only [decodeFields, hf, hrest]

theorem decodeFields_replay (S : Schema) :
    ∀ (fs : List String) (m t : List (String × Value)), fs.Nodup →
      decodeFields S m fs = some t → decodeFields S t fs = some t := by
  intro fs
  induction fs with
  | nil =>
    intro m t _ h
    simp [decodeFields] at h ⊢
    exact h.symm ▸ rfl
  | cons f fs ih =>
    intro m t hnd h
    unfold decodeFields at h
    cases hl : alLookup f m with
    | none => simp only [hl] at h; exact absurd h (by simp)
    | some v =>
      simp only [hl] at h
      by_cases hok : S.fieldOk f v = true
      · rw [if_pos hok] at h
        cases hrest : decodeFields S m fs with
        | none => simp only [hrest] at h; exact absurd h (by simp)
        | some rest =>
          simp only [hrest] at h
          simp at h
          subst h
          have hndfs : fs.Nodup := (List.nodup_cons.mp hnd).2
          have hfnot : f ∉ fs := (List.nodup_cons.mp hnd).1
          have hreplay := ih m rest hndfs hrest
          unfold decodeFields
          have hlf : alLookup f ((f, v) :: rest) = some v := by
            simp [alLookup]
          simp only [hlf]
          rw [if_pos hok]
          have hcongr : decodeFields S ((f, v) :: rest) fs =
              decodeFields S rest fs := by
            apply decodeFields_congr
            intro g hg
            have : g ≠ f := fun hc => hfnot (hc ▸ hg)
            simp [alLookup, this]
          simp only [hcongr, hreplay]
      · rw [if_neg hok] at h
        simp at h

theorem decodeFields_total (S : Schema) (m : List (String × Value)) :
    ∀ fs : List String,
      (∀ f ∈ fs, Option.any (S.fieldOk f) (alLookup f m) = true) →
      ∃ t, decodeFields S m fs = some t := by
  intro fs
  induction fs with
  | nil => intro _; exact ⟨[], rfl⟩
  | cons f fs ih =>
    intro h
    have hf := h f (by simp)
    cases hl : alLookup f m with
    | none => rw [hl] at hf; exact absurd hf (by simp [Option.any])
    | some v =>
      rw [hl] at hf
      have hok : S.fieldOk f v = true := by simpa [Option.any] using hf
      obtain ⟨rest, hrest⟩ := ih (fun g hg => h g (by simp [hg]))
      refine ⟨(f, v) :: rest, ?_⟩
      unfold decodeFields
      simp only [hl]
      rw [if_pos hok]
      simp only [hrest]

theorem extractVersion_saveValue (S : Schema) (t : List (String × Value)) :
    extractVersion (saveValue S t) = some S.VERSION := by
  simp only [saveValue, extractVersion, alLookup_alInsert_self]
  simp [deserializeU32, S.hver]

theorem setVersion_saveValue (S : Schema) (t : List (String × Value)) :
    setVersion S (saveValue S t) = saveValue S t := by
  simp only [saveValue, setVersion]
  rw [alInsert_idem]

theorem decodeT_insert_version (S : Schema) (hwf : SchemaWF S)
    (m : List (String × Value)) :
    decodeT S (Value.map (alInsert m "_version" (Value.u32 S.VERSION))) =
      decodeT S (Value.map m) := by
  unfold decodeT
  apply decodeFields_congr
  intro f hf
  exact alLookup_alInsert_ne _ _ _ _ (fun hc => hwf.2.1 (hc ▸ hf))

theorem migrate_current (S : Schema) (val : Value)
    (h : extractVersion val = some S.VERSION) :
    migrate S val = MResult.ok (setVersion S val, false) := by
  unfold migrate
  rw [h]
  have h0 : distTo S.VERSION S.VERSION = 0 :=
    (distTo_zero_iff S.hver S.hver).mpr rfl
  simp [migrateLoop, h0, migrateSteps]

theorem load_saved (S : Schema) (hwf : SchemaWF S) (t : List (String × Value))
    (hdec : decodeFields S t S.fields = some t) :
    load S (some (saveValue S t)) = MResult.ok ⟨t, false, none⟩ := by
  have hm : migrate S (loadValue S (some (saveValue S t))) =
      MResult.ok (setVersion S (saveValue S t), false) :=
    migrate_current S (saveValue S t) (extractVersion_saveValue S t)
  have hd : decodeT S (saveValue S t) = some t := by
    rw [show saveValue S t =
        Value.map (alInsert t "_version" (Value.u32 S.VERSION)) from rfl,
      decodeT_insert_version S hwf]
    exact hdec
  simp only [load, hm, setVersion_saveValue, hd]
  simp

theorem load_ok_inv {S : Schema} {f₀ : Option Value} {r : LoadResult}
    (h : load S f₀ = MResult.ok r) :
    ∃ val', migrate S (loadValue S f₀) = MResult.ok (val', r.changed)
      ∧ decodeT S val' = some r.typed
      ∧ ((r.changed || f₀.isNone) = true
            ∧ r.newFile = some (saveValue S r.typed)
         ∨ (r.changed || f₀.isNone) = false ∧ r.newFile = none) := by
  unfold load at h
  split at h
  · exact absurd h (by simp)
  · exact absurd h (by simp)
  · rename_i val' changed heq
    split at h
    · exact absurd h (by simp)
    · rename_i t hd
      split at h
      · rename_i hb
        cases h
        exact ⟨val', heq, hd, Or.inl ⟨by simpa using hb, rfl⟩⟩
      · rename_i hb
        cases h
        exact ⟨val', heq, hd, Or.inr ⟨Bool.eq_false_iff.mpr hb, rfl⟩⟩

theorem alLookup_alEntryOrInsert (tm : List (String × Value)) (k₀ k : String)
    (v₀ : Value) :
    alLookup k (alEntryOrInsert tm k₀ v₀) =
      if (alLookup k₀ tm).isSome then alLookup k tm
      else (alLookup k tm).orElse
        (fun _ => if k = k₀ then some v₀ else none) := by
  unfold alEntryOrInsert
  by_cases hp : (alLookup k₀ tm).isSome
  · rw [if_pos hp, if_pos hp]
  · rw [if_neg hp, if_neg hp, alLookup_append]
    rfl

theorem alLookup_mergeMapDefaults (defaults : List (String × Value)) :
    ∀ (tm : List (String × Value)) (k : String),
      alLookup k (mergeMapDefaults defaults tm) =
        (alLookup k tm).orElse (fun _ => alLookup k defaults) := by
  induction defaults with
  | nil =>
    intro tm k
    have : mergeMapDefaults [] tm = tm := rfl
    rw [this]
    cases alLookup k tm <;> simp [alLookup, Option.orElse]
  | cons kv ds ih =>
    intro tm k
    obtain ⟨k₀, v₀⟩ := kv
    have hfold : mergeMapDefaults ((k₀, v₀) :: ds) tm =
        mergeMapDefaults ds (alEntryOrInsert tm k₀ v₀) := rfl
    rw [hfold, ih, alLookup_alEntryOrInsert]
    by_cases hp : (alLookup k₀ tm).isSome
    · rw [if_pos hp]
      by_cases hk : k = k₀
      · subst hk
        obtain ⟨w, hw⟩ := Option.isSome_iff_exists.mp hp
        rw [hw]
        simp [alLookup, Option.orElse]
      · cases alLookup k tm <;> simp [alLookup, hk, Option.orElse]
    · rw [if_neg hp]
      by_cases hk : k = k₀
      · subst hk
        have hnone : alLookup k tm = none :=
          Option.not_isSome_iff_eq_none.mp hp
        rw [hnone]
        simp [alLookup, Option.orElse]
      · cases alLookup k tm <;> simp [alLookup, hk, Option.orElse]

/-- Concrete schema for the examples of C3: defaults
`{name: "default", count: 42}`. -/
def schemaC3 : Schema where
  VERSION := 1
  hver := by decide
  fileName := "example.toml"
  fields := ["name", "count"]
  defaultVal := [("name", Value.str "default"), ("count", Value.u32 42)]
  fieldOk := fun _ _ => true
  steps := fun _ => none

/-- C3: merging schema defaults into a root-map record inserts exactly the
defaulted keys absent from the record and never changes the value of a key
already present: the merged record's lookup is the record's lookup, falling
back to the defaults' lookup.  In particular, `{name: "x"}` merged with
defaults `{name: "default", count: 42}` is `{name: "x", count: 42}`. -/
theorem c3_merge_defaults :
    (∀ (S : Schema) (tm : List (String × Value)) (k : String),
        alLookup k (mergeMapDefaults S.defaultVal tm) =
          (alLookup k tm).orElse (fun _ => alLookup k S.defaultVal))
    ∧ mergeDefaults schemaC3 (Value.map [("name", Value.str "x")]) =
        Value.map [("name", Value.str "x"), ("count", Value.u32 42)] := by
  constructor
  · intro S tm k
    exact alLookup_mergeMapDefaults S.defaultVal tm k
  · rfl

/-- C7 (amended): on a root map, an absent `_version` yields version 1; a
present integer-like scalar that fits in `u32` is coerced to an unsigned
integer; an out-of-range integer-like scalar, a non-numeric `_version`
value, or a non-map root is a fatal decode error (modelled `none`, the
panic). -/
theorem c7_extract_version :
    (∀ m : List (String × Value), alLookup "_version" m = none →
        extractVersion (Value.map m) = some 1)
    ∧ (∀ (m : List (String × Value)) (n : Nat),
        alLookup "_version" m = some (Value.u32 n) → n < u32Mod →
        extractVersion (Value.map m) = some n)
    ∧ (∀ (m : List (String × Value)) (n : Nat),
        alLookup "_version" m = some (Value.u64 n) → n < u32Mod →
        extractVersion (Value.map m) = some n)
    ∧ (∀ (m : List (String × Value)) (i : Int),
        alLookup "_version" m = some (Value.i64 i) →
        0 ≤ i → i < 4294967296 →
        extractVersion (Value.map m) = some i.toNat)
    ∧ (∀ (m : List (String × Value)) (n : Nat),
        alLookup "_version" m = some (Value.u64 n) → u32Mod ≤ n →
        extractVersion (Value.map m) = none)
    ∧ (∀ (m : List (String × Value)) (i : Int),
        alLookup "_version" m = some (Value.i64 i) →
        (i < 0 ∨ 4294967296 ≤ i) →
        extractVersion (Value.map m) = none)
    ∧ (∀ (m : List (String × Value)) (w : Value),
        alLookup "_version" m = some w → isIntScalar w = false →
        extractVersion (Value.map m) = none)
    ∧ (∀ s, extractVersion (Value.str s) = none)
    ∧ (∀ b, extractVersion (Value.boolV b) = none)
    ∧ (∀ l, extractVersion (Value.seq l) = none) := by
  refine ⟨?_, ?_, ?_, ?_, ?_, ?_, ?_, fun _ => rfl, fun _ => rfl, fun _ => rfl⟩
  · intro m h
    simp only [extractVersion, h]
  · intro m n h hn
    simp only [extractVersion, h, deserializeU32, if_pos hn]
  · intro m n h hn
    simp only [extractVersion, h, deserializeU32, if_pos hn]
  · intro m i h h0 h1
    simp only [extractVersion, h, deserializeU32, if_pos (And.intro h0 h1)]
  · intro m n h hn
    have : ¬n < u32Mod := by omega
    simp only [extractVersion, h, deserializeU32, if_neg this]
  · intro m i h hi
    have : ¬(0 ≤ i ∧ i < 4294967296) := by omega
    simp only [extractVersion, h, deserializeU32, if_neg this]
  · intro m w h hw
    cases w with
    | u32 n => exact absurd hw (by simp [isIntScalar])
    | u64 n => exact absurd hw (by simp [isIntScalar])
    | i64 i => exact absurd hw (by simp [isIntScalar])
    | str s => simp only [extractVersion, h, deserializeU32]
    | boolV b => simp only [extractVersion, h, deserializeU32]
    | map m' => simp only [extractVersion, h, deserializeU32]
    | seq l => simp only [extractVersion, h, deserializeU32]

/-- C7 counterexample: `_version = -1` (a TOML file may contain
`_version = -1`, parsed as `I64(-1)`) is a present integer-like scalar, but
extraction panics (`expect` on the failed `u32` coercion) instead of
coercing it to an unsigned integer. -/
theorem c7_counterexample :
    isIntScalar (Value.i64 (-1)) = true
    ∧ alLookup "_version" [("_version", Value.i64 (-1))] =
        some (Value.i64 (-1))
    ∧ extractVersion (Value.map [("_version", Value.i64 (-1))]) = none :=
  ⟨rfl, rfl, rfl⟩

/-- Witness for C7: a record `{_version: U64 5}` extracts version 5. -/
theorem c7_witness :
    extractVersion (Value.map [("_version", Value.u64 5)]) = some 5 :=
  c7_extract_version.2.2.1 [("_version", Value.u64 5)] 5 rfl (by decide)

/-- C1: when the extracted version is at most the schema's current version,
`migrate` applies the registered steps strictly in increasing source-version
order, one per version boundary — each boundary merges defaults first, then
applies the step for that source version if one exists (a missing step is a
no-op) — until the current version is reached; afterwards `_version` is set
to the current version and the changed flag is (extracted != current). -/
theorem c1_migrate_in_order (S : Schema) (val : Value) (v : Nat)
    (h1 : extractVersion val = some v) (h2 : v ≤ S.VERSION) :
    migrate S val =
      match chainUp S v (S.VERSION - v) val with
      | Except.error e => MResult.error e
      | Except.ok w => MResult.ok (setVersion S w, v != S.VERSION) := by
  unfold migrate
  rw [h1]
  have hd : distTo S.VERSION v = S.VERSION - v := distTo_of_le S.hver h2
  have hchain := migrateSteps_eq_chainUp S (S.VERSION - v) v val (by omega)
  simp only [migrateLoop, hd, hchain]

/-- Schema for the C1 witness: version 2, with a step registered for source
version 1 that inserts `use_tls = true`. -/
def stepAddFlag : Value → Except Error Value := fun val =>
  match val with
  | Value.map m =>
    Except.ok (Value.map (alInsert m "use_tls" (Value.boolV true)))
  | v => Except.ok v

def schemaC1 : Schema where
  VERSION := 2
  hver := by decide
  fileName := "server.toml"
  fields := ["host", "use_tls"]
  defaultVal := [("host", Value.str "localhost"),
                 ("use_tls", Value.boolV false)]
  fieldOk := fun _ _ => true
  steps := fun v => if v = 1 then some stepAddFlag else none

def valC1 : Value := Value.map [("host", Value.str "prod")]

/-- Witness for C1: a v1 record under a v2 schema with a 1→2 step. -/
theorem c1_witness :
    migrate schemaC1 valC1 =
      match chainUp schemaC1 1 (schemaC1.VERSION - 1) valC1 with
      | Except.error e => MResult.error e
      | Except.ok w => MResult.ok (setVersion schemaC1 w, 1 != schemaC1.VERSION) :=
  c1_migrate_in_order schemaC1 valC1 1 (by decide) (by decide)

/-- C10: a record whose extracted version exceeds the schema's current
version is not rejected: the loop still runs, incrementing the u32 counter
(wrapping at `2^32`) and merging defaults / applying any registered step at
each intermediate counter value, for exactly `2^32 + current - v` iterations
(a positive number), i.e. it terminates only once the counter wraps around
and reaches the current version; the changed flag is `true`. -/
theorem c10_migrate_wraps (S : Schema) (val : Value) (v : Nat)
    (h1 : extractVersion val = some v) (h2 : S.VERSION < v) :
    (migrate S val =
      match chainUpMod S v (u32Mod + S.VERSION - v) val with
      | Except.error e => MResult.error e
      | Except.ok w => MResult.ok (setVersion S w, true))
    ∧ 0 < u32Mod + S.VERSION - v := by
  have hv := extractVersion_lt h1
  have hd : distTo S.VERSION v = u32Mod + S.VERSION - v :=
    distTo_of_gt S.hver hv h2
  constructor
  · unfold migrate
    rw [h1]
    have hchain :=
      migrateSteps_eq_chainUpMod S (u32Mod + S.VERSION - v) v val hv hd
    have hb : (v != S.VERSION) = true := by
      simp [Nat.ne_of_gt h2]
    simp only [migrateLoop, hd, hchain, hb]
  · unfold u32Mod at *
    omega

/-- Schema and record for the C10 witness: a version-5 record under a
version-1 schema. -/
def schemaC10 : Schema where
  VERSION := 1
  hver := by decide
  fileName := "future.toml"
  fields := ["name"]
  defaultVal := [("name", Value.str "d")]
  fieldOk := fun _ _ => true
  steps := fun _ => none

def valC10 : Value := Value.map [("_version", Value.u32 5)]

/-- Witness for C10: the loop from version 5 down-counts through the wrap,
running `2^32 - 4` iterations instead of erroring out. -/
theorem c10_witness :
    (migrate schemaC10 valC10 =
      match chainUpMod schemaC10 5 (u32Mod + schemaC10.VERSION - 5) valC10 with
      | Except.error e => MResult.error e
      | Except.ok w => MResult.ok (setVersion schemaC10 w, true))
    ∧ 0 < u32Mod + schemaC10.VERSION - 5 :=
  c10_migrate_wraps schemaC10 valC10 5 (by decide) (by decide)

/-- A small concrete schema used by several witnesses: one string field
`name` defaulting to `"default_name"`. -/
def schemaS : Schema where
  VERSION := 1
  hver := by decide
  fileName := "app.toml"
  fields := ["name"]
  defaultVal := [("name", Value.str "default_name")]
  fieldOk := fun _ v =>
    match v with
    | Value.str _ => true
    | _ => false
  steps := fun _ => none

/-- C5: loading a missing backing file starts from the schema's default
value with `_version` set to the current version and immediately persists
it: the written file's extracted `_version` equals the schema's current
version and its decoded value equals the decode of the schema's declared
defaults. -/
theorem c5_load_missing_file (S : Schema) (hwf : SchemaWF S) :
    ∃ t, load S none = MResult.ok ⟨t, false, some (saveValue S t)⟩
      ∧ extractVersion (saveValue S t) = some S.VERSION
      ∧ decodeT S (saveValue S t) = some t
      ∧ decodeT S (Value.map S.defaultVal) = some t := by
  obtain ⟨t, ht⟩ := decodeFields_total S S.defaultVal S.fields hwf.2.2
  have hval : loadValue S none = saveValue S S.defaultVal := rfl
  have hm : migrate S (loadValue S none) =
      MResult.ok (saveValue S S.defaultVal, false) := by
    rw [hval, migrate_current S _ (extractVersion_saveValue S S.defaultVal),
      setVersion_saveValue]
  have hd : decodeT S (saveValue S S.defaultVal) = some t := by
    rw [show saveValue S S.defaultVal =
        Value.map (alInsert S.defaultVal "_version" (Value.u32 S.VERSION)) from
        rfl,
      decodeT_insert_version S hwf]
    exact ht
  refine ⟨t, ?_, extractVersion_saveValue S t, ?_, ht⟩
  · simp only [load, hm, hd]
    simp
  · have hreplay := decodeFields_replay S S.fields S.defaultVal t hwf.1 ht
    rw [show saveValue S t =
        Value.map (alInsert t "_version" (Value.u32 S.VERSION)) from rfl,
      decodeT_insert_version S hwf]
    exact hreplay

/-- Witness for C5 at the concrete one-field schema. -/
theorem c5_witness :
    ∃ t, load schemaS none = MResult.ok ⟨t, false, some (saveValue schemaS t)⟩
      ∧ extractVersion (saveValue schemaS t) = some schemaS.VERSION
      ∧ decodeT schemaS (saveValue schemaS t) = some t
      ∧ decodeT schemaS (Value.map schemaS.defaultVal) = some t :=
  c5_load_missing_file schemaS (by decide)

/-- C4: loading a record already at the schema's current version reports
`changed = false` and does not rewrite the file; and a second load performed
on the file state a successful load left behind yields the identical typed
value, reports `changed = false`, and does not rewrite the file. -/
theorem c4_load_idempotent (S : Schema) (hwf : SchemaWF S) :
    (∀ (v : Value) (r : LoadResult), extractVersion v = some S.VERSION →
        load S (some v) = MResult.ok r →
        r.changed = false ∧ r.newFile = none)
    ∧ (∀ (f₀ : Option Value) (r : LoadResult), load S f₀ = MResult.ok r →
        load S (fileAfterLoad f₀ r) = MResult.ok ⟨r.typed, false, none⟩) := by
  constructor
  · intro v r h1 h2
    obtain ⟨val', hmig, _, hbr⟩ := load_ok_inv h2
    have hlv : loadValue S (some v) = v := rfl
    rw [hlv, migrate_current S v h1] at hmig
    have hch : r.changed = false := by
      have := (MResult.ok.injEq _ _).mp hmig
      exact (Prod.mk.injEq _ _ _ _).mp this |>.2.symm
    rcases hbr with ⟨hb, _⟩ | ⟨_, hnf⟩
    · rw [hch] at hb
      simp at hb
    · exact ⟨hch, hnf⟩
  · intro f₀ r h
    obtain ⟨val', _, hdec, hbr⟩ := load_ok_inv h
    rcases hbr with ⟨_, hnf⟩ | ⟨hb, hnf⟩
    · rw [show fileAfterLoad f₀ r = some (saveValue S r.typed) from by
        simp [fileAfterLoad, hnf]]
      have hrep : decodeFields S r.typed S.fields = some r.typed := by
        cases val' with
        | map m => exact decodeFields_replay S S.fields m r.typed hwf.1 hdec
        | str s => exact absurd hdec (by simp [decodeT])
        | boolV b => exact absurd hdec (by simp [decodeT])
        | u32 n => exact absurd hdec (by simp [decodeT])
        | u64 n => exact absurd hdec (by simp [decodeT])
        | i64 i => exact absurd hdec (by simp [decodeT])
        | seq l => exact absurd hdec (by simp [decodeT])
      exact load_saved S hwf r.typed hrep
    · have hfa : fileAfterLoad f₀ r = f₀ := by simp [fileAfterLoad, hnf]
      have hch : r.changed = false := by
        cases hcc : r.changed
        · rfl
        · rw [hcc] at hb
          simp at hb
      have hr : r = ⟨r.typed, false, none⟩ := by
        cases r
        simp_all
      rw [hfa, ← hr]
      exact h

/-- Witness for C4: a current-version record loads with `changed = false`
and no rewrite. -/
theorem c4_witness :
    (⟨[("name", Value.str "x")], false, none⟩ : LoadResult).changed = false
    ∧ (⟨[("name", Value.str "x")], false, none⟩ : LoadResult).newFile = none :=
  (c4_load_idempotent schemaS (by decide)).1
    (Value.map [("name", Value.str "x"), ("_version", Value.u32 1)])
    ⟨[("name", Value.str "x")], false, none⟩ rfl rfl

/-- C6: if the mutator passed to `update` returns an error, nothing is
persisted — the backing file is unchanged and no filesystem event occurs —
while the in-memory value keeps whatever partial mutation the mutator
already performed; the save happens exactly when the mutator returns
success. -/
theorem c6_update_mutator_error (S : Schema) (dir : String)
    (st : StoreEntry) (f : Mutator) :
    (∀ (t' : List (String × Value)) (e : Error),
        f st.value = (t', Except.error e) →
        update S st f = (⟨t', st.file⟩, Except.error e)
        ∧ updateEvents S dir st f = [])
    ∧ (∀ t' : List (String × Value), f st.value = (t', Except.ok ()) →
        update S st f = (⟨t', some (saveValue S t')⟩, Except.ok ())
        ∧ updateEvents S dir st f = saveEvents S dir t') := by
  constructor
  · intro t' e h
    constructor <;> simp only [update, updateEvents, h]
  · intro t' h
    constructor <;> simp only [update, updateEvents, h]

def stW : StoreEntry :=
  ⟨[("name", Value.str "a")],
   some (Value.map [("name", Value.str "a"), ("_version", Value.u32 1)])⟩

/-- A mutator that first mutates `name`, then fails. -/
def mutFail : Mutator := fun t =>
  (alInsert t "name" (Value.str "b"), Except.error Error.io)

/-- Witness for C6: the failing mutator leaves the file untouched and the
partially mutated value in memory. -/
theorem c6_witness :
    (update schemaS stW mutFail =
      (⟨alInsert [("name", Value.str "a")] "name" (Value.str "b"), stW.file⟩,
       Except.error Error.io))
    ∧ updateEvents schemaS "config" stW mutFail = [] :=
  (c6_update_mutator_error schemaS "config" stW mutFail).1
    (alInsert [("name", Value.str "a")] "name" (Value.str "b")) Error.io rfl

/-- C2 (amended): every persistence performed by the Record Store — the
save triggered by load-after-migration and by a successful update — goes
through `ConfigData::save`'s protocol: a plain (unlocked, un-fsynced) write
of the encoded record to the destination path with its extension replaced by
`tmp`, followed by a rename over the destination.  This trace acquires no
lock, issues no fsync, and does not follow the Atomic File Channel's write
protocol — which `AtomicFile::write`'s own trace does follow. -/
theorem c2_save_plain_write (S : Schema) (dir : String) :
    (∀ t : List (String × Value),
        saveEvents S dir t =
          [FsEvent.plainWrite (withExtTmp (joinPath dir S.fileName))
             (saveValue S t),
           FsEvent.renameFile (withExtTmp (joinPath dir S.fileName))
             (joinPath dir S.fileName)]
        ∧ (∀ p, FsEvent.lockExclusive p ∉ saveEvents S dir t)
        ∧ FsEvent.syncTempFile ∉ saveEvents S dir t
        ∧ specAtomicWriteProtocol (joinPath dir S.fileName)
            (saveEvents S dir t) = false)
    ∧ (∀ (st : StoreEntry) (f : Mutator),
        updateEvents S dir st f = []
        ∨ ∃ t', updateEvents S dir st f = saveEvents S dir t')
    ∧ (∀ file : Option Value,
        loadEvents S dir file = []
        ∨ ∃ t', loadEvents S dir file = saveEvents S dir t')
    ∧ (∀ contents : Value,
        specAtomicWriteProtocol (joinPath dir S.fileName)
          (atomicWriteEvents (joinPath dir S.fileName) contents) = true) := by
  refine ⟨fun t => ⟨rfl, ?_, ?_, rfl⟩, ?_, ?_, ?_⟩
  · intro p
    simp [saveEvents]
  · simp [saveEvents]
  · intro st f
    unfold updateEvents
    cases hf : f st.value with
    | mk t' res =>
      cases res with
      | error e => exact Or.inl rfl
      | ok u => exact Or.inr ⟨t', rfl⟩
  · intro file
    unfold loadEvents
    cases load S file with
    | panic => exact Or.inl rfl
    | error e => exact Or.inl rfl
    | ok r =>
      obtain ⟨t, ch, nf⟩ := r
      cases nf with
      | none => exact Or.inl rfl
      | some w => exact Or.inr ⟨t, rfl⟩
  · intro contents
    simp [specAtomicWriteProtocol, atomicWriteEvents]

/-- A mutator that succeeds, to exhibit a persistence. -/
def mutOk : Mutator := fun t => (t, Except.ok ())

/-- C2 counterexample: a successful `update` does persist (its event trace
is non-empty), and that trace does not follow the Atomic File Channel's
write protocol — so not every Record Store persistence goes through the
Atomic File Channel. -/
theorem c2_counterexample :
    updateEvents schemaS "config" stW mutOk ≠ []
    ∧ specAtomicWriteProtocol (joinPath "config" schemaS.fileName)
        (updateEvents schemaS "config" stW mutOk) = false := by
  constructor
  · simp [updateEvents, mutOk, saveEvents]
  · rfl

/-- Witness for C2: the amended characterization at a concrete update. -/
theorem c2_witness :
    updateEvents schemaS "config" stW mutOk = []
    ∨ ∃ t', updateEvents schemaS "config" stW mutOk =
        saveEvents schemaS "config" t' :=
  (c2_save_plain_write schemaS "config").2.1 stW mutOk

/-- A second loadable schema, distinct file name, for the C8 entries. -/
def schemaB : Schema where
  VERSION := 1
  hver := by decide
  fileName := "b.toml"
  fields := ["name"]
  defaultVal := [("name", Value.str "bee")]
  fieldOk := fun _ v =>
    match v with
    | Value.str _ => true
    | _ => false
  steps := fun _ => none

/-- A schema whose load fails: its backing file is already at the current
version but lacks the required field `x`, so the final decode errors. -/
def schemaBad : Schema where
  VERSION := 1
  hver := by decide
  fileName := "bad.toml"
  fields := ["x"]
  defaultVal := []
  fieldOk := fun _ _ => true
  steps := fun _ => none

def entryA : Entry :=
  ⟨schemaS, some (Value.map [("name", Value.str "x"),
    ("_version", Value.u32 1)]), none⟩

def entryB : Entry :=
  ⟨schemaB, some (Value.map [("name", Value.str "y"),
    ("_version", Value.u32 1)]), none⟩

def entryBad : Entry :=
  ⟨schemaBad, some (Value.map [("_version", Value.u32 1)]), none⟩

/-- C8 (amended): `load_all` calls `load` for every entry of the store's
config table in the table's own iteration order — which, the table being a
`HashMap`, is an unspecified permutation of the registry's registration
order — and the first load failure aborts the pass, leaving the entries
iterated before it loaded and the failing entry and all later ones
untouched. -/
theorem c8_load_all :
    (∀ registry store : List Entry, List.Perm store registry →
        List.Perm (store.map entryName) (registry.map entryName))
    ∧ (∀ store : List Entry, (∀ e ∈ store, (loadEntry e).isOk = true) →
        loadAll store = (store.map loadedEntry, MResult.ok ())
        ∧ loadCallOrder store = store.map entryName)
    ∧ (∀ (pre : List Entry) (e : Entry) (rest : List Entry) (er : Error),
        (∀ e' ∈ pre, (loadEntry e').isOk = true) →
        loadEntry e = MResult.error er →
        loadAll (pre ++ e :: rest) =
          (pre.map loadedEntry ++ e :: rest, MResult.error er)
        ∧ loadCallOrder (pre ++ e :: rest) =
            pre.map entryName ++ [entryName e]) := by
  refine ⟨fun _ _ h => h.map entryName, ?_, ?_⟩
  · intro store
    induction store with
    | nil => intro _; exact ⟨rfl, rfl⟩
    | cons e rest ih =>
      intro h
      have he := h e (by simp)
      cases hle : loadEntry e with
      | panic => rw [hle] at he; exact absurd he (by simp [MResult.isOk])
      | error er => rw [hle] at he; exact absurd he (by simp [MResult.isOk])
      | ok e' =>
        obtain ⟨ih1, ih2⟩ := ih (fun x hx => h x (by simp [hx]))
        have hloaded : loadedEntry e = e' := by
          simp only [loadedEntry, hle]
        constructor
        · simp only [loadAll, hle, ih1, List.map_cons, hloaded]
        · simp only [loadCallOrder, hle, ih2, List.map_cons]
  · intro pre
    induction pre with
    | nil =>
      intro e rest er _ hfail
      constructor
      · simp only [List.nil_append, loadAll, hfail, List.map_nil]
      · simp only [List.nil_append, loadCallOrder, hfail, List.map_nil,
          List.nil_append]
    | cons p pre' ih =>
      intro e rest er h hfail
      have hp := h p (by simp)
      cases hlp : loadEntry p with
      | panic => rw [hlp] at hp; exact absurd hp (by simp [MResult.isOk])
      | error e2 => rw [hlp] at hp; exact absurd hp (by simp [MResult.isOk])
      | ok p' =>
        obtain ⟨ih1, ih2⟩ :=
          ih e rest er (fun x hx => h x (by simp [hx])) hfail
        have hloaded : loadedEntry p = p' := by
          simp only [loadedEntry, hlp]
        constructor
        · simp only [List.cons_append, loadAll, hlp, List.append_eq, ih1,
            List.map_cons, hloaded]
        · simp only [List.cons_append, loadCallOrder, hlp, List.append_eq,
            ih2, List.map_cons]

/-- Witness for C8: a two-entry store where the second entry's load fails
with a decode error — the first stays loaded, the second is untouched. -/
theorem c8_witness :
    loadAll ([entryA] ++ entryBad :: []) =
      ([entryA].map loadedEntry ++ entryBad :: [],
       MResult.error Error.deserialization)
    ∧ loadCallOrder ([entryA] ++ entryBad :: []) =
        [entryA].map entryName ++ [entryName entryBad] :=
  c8_load_all.2.2 [entryA] entryBad [] Error.deserialization
    (by
      intro e' he'
      rw [List.mem_singleton] at he'
      subst he'
      rfl)
    rfl

/-- C8 counterexample: the store table `[entryB, entryA]` is a legal
`HashMap` arrangement (a permutation) of the registry `[entryA, entryB]`,
yet `load_all`'s call order follows the table, not the registry — so loads
are not performed in registry iteration order. -/
theorem c8_counterexample :
    List.Perm [entryB, entryA] [entryA, entryB]
    ∧ loadCallOrder [entryB, entryA] = ["b.toml", "app.toml"]
    ∧ [entryA, entryB].map entryName = ["app.toml", "b.toml"]
    ∧ loadCallOrder [entryB, entryA] ≠ [entryA, entryB].map entryName := by
  refine ⟨List.Perm.swap entryA entryB [], rfl, rfl, ?_⟩
  intro h
  rw [show loadCallOrder [entryB, entryA] = ["b.toml", "app.toml"] from rfl,
    show [entryA, entryB].map entryName = ["app.toml", "b.toml"] from rfl]
      at h
  exact absurd h (by decide)

/-- C9: `AtomicFile::read` opens with `.read(true).create(true)` but no
write or append access, which `OpenOptions::open` rejects as
`InvalidInput` before touching the filesystem — so `read` fails on every
path and every filesystem state, instead of creating an empty file when the
path is absent and returning the contents. -/
theorem c9_read_always_invalid_input :
    ∀ (fs : List (String × String)) (path : String),
      atomicRead fs path = Except.error IoErr.invalidInput :=
  fun _ _ => rfl

end NextConfig
